import Mathlib

/-!
Verification development for the EcoSchoolMap scoring, normalization and
layout code.

The definitions below are shallow embeddings of the JavaScript source:

* the client-side scoring engine (weight presets, descriptor score tables,
  calculateSchoolPosition, calculatePositions, applyNormalization,
  zscoreNormalize, percentileNormalize, minmaxNormalize, getWeightPreset);
* the D3 renderer layout state machinery in D3MapRenderer.js
  (the linear pixel scales from scales.js, the per-tick boundary clamp of
  renderNodes, the random micro-offset applied to target coordinates, and
  the setCollisionEnabled / resetNodesToTargets toggle logic).

JavaScript numbers are modelled as elements of a linear ordered field
(instantiated at ℚ or ℝ); the one place where the source can produce a
non-finite value (division by zero in percentile normalization) is modelled
explicitly with the JSNum wrapper, whose division follows the IEEE rules
used by JavaScript (0/0 is NaN, x/0 is a signed infinity for x ≠ 0).
-/

/-- JavaScript number that may be non-finite: either a finite value of the
underlying field, a signed infinity, or NaN. -/
inductive JSNum (K : Type) where
  | num (q : K)
  | posInf
  | negInf
  | nan
deriving DecidableEq

variable {K : Type} [LinearOrderedField K]

/-- Division as JavaScript computes it on finite operands: for a nonzero
denominator the exact quotient, otherwise NaN for 0/0 and a signed infinity
for x/0 with x nonzero. -/
def jsDiv (a b : K) : JSNum K :=
  if b = 0 then
    if a = 0 then JSNum.nan else if 0 < a then JSNum.posInf else JSNum.negInf
  else JSNum.num (a / b)

/-- The affine map p ↦ 2p − 1 lifted to JSNum; infinities and NaN are
absorbing, exactly as in JavaScript arithmetic. -/
def jsAffine : JSNum K → JSNum K
  | JSNum.num q => JSNum.num (2 * q - 1)
  | JSNum.posInf => JSNum.posInf
  | JSNum.negInf => JSNum.negInf
  | JSNum.nan => JSNum.nan

/-- Extract the finite value of a JSNum (0 for non-finite values); used only
to state idempotence of percentile normalization, whose outputs are all
finite when the input has more than one element. -/
def jsToNum : JSNum K → K
  | JSNum.num q => q
  | _ => 0

/-! ### ScoreEngine: weight presets and descriptor score tables

Faithful transcription of the tables in the scoring engine source.
Each table is an association list keyed by the descriptor value strings.
-/

/-- Per-axis weight table of a preset: one scalar weight per scoring
dimension, keyed by the dimension name, as in the source objects. -/
structure AxisWeights (K : Type) where
  entries : List (String × K)
deriving DecidableEq

/-- Weight preset: independent x-axis and y-axis weight tables. -/
structure WeightPreset (K : Type) where
  x : AxisWeights K
  y : AxisWeights K
deriving DecidableEq

/-- Association-list lookup modelling JavaScript property access
(object[key] is undefined when the key is absent, modelled as none). -/
def lookupStr {α : Type} (l : List (String × α)) (k : String) : Option α :=
  (l.find? (fun e => e.1 == k)).map (fun e => e.2)

/-- Weight table of the base preset (source object WEIGHT_PRESETS.base;
both axes use the same weights there). -/
def baseAxis : AxisWeights K :=
  ⟨[("economia", 1/10), ("humano", 3/20), ("mundo", 1/20),
    ("ambito", 3/20), ("motor", 1/5), ("politica", 7/20)]⟩

/-- The seven weight presets of the scoring engine, in source order. -/
def WEIGHT_PRESETS : List (String × WeightPreset K) :=
  [("base", ⟨baseAxis, baseAxis⟩),
   ("state-emphasis",
    ⟨⟨[("economia", 1/5), ("humano", 1/10), ("mundo", 1/10),
       ("ambito", 3/20), ("motor", 1/5), ("politica", 1/4)]⟩, baseAxis⟩),
   ("equity-emphasis",
    ⟨baseAxis,
     ⟨[("economia", 3/20), ("humano", 1/5), ("mundo", 1/10),
       ("ambito", 1/5), ("motor", 3/20), ("politica", 1/5)]⟩⟩),
   ("market-emphasis",
    ⟨⟨[("economia", 1/20), ("humano", 1/10), ("mundo", 3/20),
       ("ambito", 1/5), ("motor", 1/4), ("politica", 1/4)]⟩, baseAxis⟩),
   ("growth-emphasis",
    ⟨baseAxis,
     ⟨[("economia", 1/20), ("humano", 1/10), ("mundo", 3/20),
       ("ambito", 1/5), ("motor", 1/4), ("politica", 1/4)]⟩⟩),
   ("historical-emphasis",
    ⟨⟨[("economia", 3/20), ("humano", 1/10), ("mundo", 1/5),
       ("ambito", 1/10), ("motor", 3/20), ("politica", 3/10)]⟩, baseAxis⟩),
   ("pragmatic-emphasis",
    ⟨⟨[("economia", 3/25), ("humano", 9/50), ("mundo", 2/25),
       ("ambito", 3/25), ("motor", 9/50), ("politica", 8/25)]⟩,
     ⟨[("economia", 3/25), ("humano", 9/50), ("mundo", 2/25),
       ("ambito", 3/25), ("motor", 9/50), ("politica", 8/25)]⟩⟩)]

/-- Score table for the dimension economia (SCORES_ECONOMIA). -/
def SCORES_ECONOMIA : List (String × K × K) :=
  [("clases_sociales", 7/10, 1/2), ("individuos", -9/10, -1/2),
   ("instituciones", 3/10, 0), ("sistema_complejo", 1/2, 1/5),
   ("sistema_productivo", 3/5, -3/5)]

/-- Score table for the dimension humano (SCORES_HUMANO). -/
def SCORES_HUMANO : List (String × K × K) :=
  [("racional_egoista", -4/5, -4/5), ("racional_limitada", 1/5, 3/10),
   ("condicionado_clase", 7/10, 7/10), ("adaptable_cultural", 1/10, 1/10)]

/-- Score table for the dimension mundo (SCORES_MUNDO). -/
def SCORES_MUNDO : List (String × K × K) :=
  [("equilibrio_cierto", -7/10, -3/10), ("incertidumbre", 2/5, 0),
   ("evolutivo_dinamico", -1/5, -3/5), ("determinista_historico", 1/2, 0)]

/-- Score table for the dimension ambito (SCORES_AMBITO). -/
def SCORES_AMBITO : List (String × K × K) :=
  [("intercambio_mercado", -3/5, -1/5), ("produccion", 3/10, -9/10),
   ("distribucion", 3/5, 9/10), ("consumo_demanda", 2/5, 3/10)]

/-- Score table for the dimension motor (SCORES_MOTOR). -/
def SCORES_MOTOR : List (String × K × K) :=
  [("accion_individual", -1, -2/5), ("acumulacion_capital", -1/2, -4/5),
   ("innovacion", -3/10, -7/10), ("conflicto_social", 4/5, 4/5),
   ("politica_estado", 9/10, -7/10)]

/-- Score table for the dimension politica (SCORES_POLITICA). -/
def SCORES_POLITICA : List (String × K × K) :=
  [("laissez_faire", -1, -1/2), ("fallos_mercado", -1/5, 0),
   ("welfare_state", 1/2, 3/5), ("developmental_state", 4/5, -4/5),
   ("planificacion_central", 1, 1/2)]

/-- SCORE_MAPPINGS: the six scoring dimensions with their tables, in the
iteration order of the source object. -/
def SCORE_MAPPINGS : List (String × List (String × K × K)) :=
  [("economia", SCORES_ECONOMIA), ("humano", SCORES_HUMANO),
   ("mundo", SCORES_MUNDO), ("ambito", SCORES_AMBITO),
   ("motor", SCORES_MOTOR), ("politica", SCORES_POLITICA)]

/-- Mapping from scoring dimension names to the data keys used on the
descriptor objects (keyMapping in calculateSchoolPosition). -/
def keyMapping : List (String × String) :=
  [("economia", "concepcion_economia"), ("humano", "concepcion_humano"),
   ("mundo", "naturaleza_mundo"), ("ambito", "ambito_economico"),
   ("motor", "motor_cambio"), ("politica", "politicas_preferidas")]

/-- Accumulation step of calculateSchoolPosition for one scoring dimension:
look up the descriptor value under the mapped data key; a missing or empty
(falsy) value, or a value absent from the score table, contributes zero;
otherwise add score times the per-axis preset weight.  Missing weight keys
are modelled as weight 0; every preset in WEIGHT_PRESETS carries all six
keys, so that branch is unreachable on the actual configuration. -/
def dimStep (descriptors : List (String × String)) (weights : WeightPreset K)
    (acc : K × K) (entry : String × List (String × K × K)) : K × K :=
  let dataKey := (lookupStr keyMapping entry.1).getD ""
  match lookupStr descriptors dataKey with
  | none => acc
  | some dv =>
    if dv = "" then acc
    else
      match lookupStr entry.2 dv with
      | none => acc
      | some s =>
        (acc.1 + s.1 * ((lookupStr weights.x.entries entry.1).getD 0),
         acc.2 + s.2 * ((lookupStr weights.y.entries entry.1).getD 0))

/-- calculateSchoolPosition: weighted sum of descriptor scores over the six
dimensions, then each axis clipped to [-1, 1] via max(-1, min(1, s)). -/
def calculateSchoolPosition (descriptors : List (String × String))
    (weights : WeightPreset K) : K × K :=
  let sums := SCORE_MAPPINGS.foldl (dimStep descriptors weights) (0, 0)
  (max (-1) (min 1 sums.1), max (-1) (min 1 sums.2))

/-- getWeightPreset: property access with JavaScript fallback
(WEIGHT_PRESETS[presetName] || WEIGHT_PRESETS.base); none models the
undefined result when both lookups miss (never the case here, since the
table contains the key base). -/
def getWeightPreset (presetName : String) : Option (WeightPreset K) :=
  (lookupStr WEIGHT_PRESETS presetName).orElse
    (fun _ => lookupStr WEIGHT_PRESETS "base")

/-! ### Normalizer -/

/-- Minimum of a value list as JavaScript Math.min spread over a nonempty
array computes it (the empty case is never used by the source). -/
def listMin : List K → K
  | [] => 0
  | x :: xs => xs.foldl min x

/-- Maximum of a value list, as JavaScript Math.max over a nonempty array. -/
def listMax : List K → K
  | [] => 0
  | x :: xs => xs.foldl max x

/-- minmaxNormalize: rescale to [0,1] by (v - min)/(max - min), then to
[-1,1] by 2v - 1; a constant list (max = min) maps to all zeros. -/
def minmaxNormalize (values : List K) : List K :=
  let mn := listMin values
  let mx := listMax values
  if mx = mn then List.replicate values.length 0
  else (values.map (fun v => (v - mn) / (mx - mn))).map (fun v => 2 * v - 1)

/-- zscoreNormalize: subtract the population mean, divide by the population
standard deviation, and clip each z-score to [-1,1]; a zero standard
deviation maps everything to 0.  Stated over ℝ because of the square
root. -/
noncomputable def zscoreNormalize (values : List ℝ) : List ℝ :=
  let mean := values.sum / (values.length : ℝ)
  let variance := (values.map (fun v => (v - mean) ^ 2)).sum / (values.length : ℝ)
  let std := Real.sqrt variance
  if std = 0 then List.replicate values.length 0
  else (values.map (fun v => (v - mean) / std)).map
    (fun z => max (-1) (min 1 z))

/-- Value-index pairs [value, index] built by percentileNormalize before
sorting (values.map((val, idx) => [val, idx])). -/
def jsIndexed (values : List K) : List (K × ℕ) :=
  values.enum.map (fun p => (p.2, p.1))

/-- Comparator of the percentile sort: the JavaScript comparator
(a, b) => a[0] - b[0] orders by first component and, being run through a
stable sort, preserves input order on ties. -/
def pairLE (a b : K × ℕ) : Bool :=
  decide (a.1 ≤ b.1)

/-- The stably sorted value-index pairs (indexed.sort((a, b) => a[0] - b[0]);
JavaScript sort is stable, which mergeSort models exactly). -/
def jsSorted (values : List K) : List (K × ℕ) :=
  (jsIndexed values).mergeSort pairLE

/-- Position of the first occurrence of an element in a list; used to read
off the rank that the forEach loop of percentileNormalize assigns through
ranks[originalIdx] = rankIdx + 1 (the pairs are distinct, so the first
occurrence is the occurrence). -/
def posIn (p : K × ℕ) : List (K × ℕ) → ℕ
  | [] => 0
  | q :: rest => if q = p then 0 else posIn p rest + 1

/-- One-based ranks in original input order: entry i is the sorted position
of pair (values[i], i) plus one, exactly what the forEach loop stores in
ranks[i]. -/
def percentileRanks (values : List K) : List ℕ :=
  (jsIndexed values).map (fun p => posIn p (jsSorted values) + 1)

/-- percentileNormalize: convert each one-based rank to the fractional
percentile (rank - 1)/(n - 1) and rescale by 2p - 1.  The division is the
JavaScript one: with n = 1 it is 0/0, which is NaN. -/
def percentileNormalize (values : List K) : List (JSNum K) :=
  (percentileRanks values).map
    (fun rank : ℕ => jsAffine (jsDiv ((rank : K) - 1) ((values.length : K) - 1)))

/-! ### applyNormalization and calculatePositions

The pipeline is stated over ℝ (zscoreNormalize needs the square root).
Raw positions are id-keyed pairs; normalized coordinates are JSNum values
because percentile normalization can produce NaN.
-/

/-- School record as consumed by calculatePositions: an id and the
descriptor object. -/
structure School where
  id : String
  descriptores : List (String × String)

/-- Rebuild the id-keyed position object from the two per-axis normalized
value lists (the schoolIds.forEach reconstruction loop). -/
def rebuildPositions (ids : List String) (xs ys : List (JSNum ℝ)) :
    List (String × JSNum ℝ × JSNum ℝ) :=
  ids.zipWith (fun id xy => (id, xy)) (xs.zip ys)

/-- applyNormalization: dispatch on the method name; zscore, percentile and
minmax normalize both axes independently; any other method name (the switch
default) returns the positions unchanged. -/
noncomputable def applyNormalization
    (positions : List (String × ℝ × ℝ)) (method : String) :
    List (String × JSNum ℝ × JSNum ℝ) :=
  let ids := positions.map (fun p => p.1)
  let xValues := positions.map (fun p => p.2.1)
  let yValues := positions.map (fun p => p.2.2)
  if method = "zscore" then
    rebuildPositions ids ((zscoreNormalize xValues).map JSNum.num)
      ((zscoreNormalize yValues).map JSNum.num)
  else if method = "percentile" then
    rebuildPositions ids (percentileNormalize xValues)
      (percentileNormalize yValues)
  else if method = "minmax" then
    rebuildPositions ids ((minmaxNormalize xValues).map JSNum.num)
      ((minmaxNormalize yValues).map JSNum.num)
  else
    positions.map (fun p => (p.1, JSNum.num p.2.1, JSNum.num p.2.2))

/-- calculatePositions: look up the preset (throwing for an unknown name
before touching any school), compute each school raw position, then apply
normalization unless the method is none. -/
noncomputable def calculatePositions (schools : List School)
    (presetName normalizationMethod : String) :
    Except String (List (String × JSNum ℝ × JSNum ℝ)) :=
  match lookupStr (WEIGHT_PRESETS (K := ℝ)) presetName with
  | none => Except.error ("Unknown preset: " ++ presetName)
  | some weights =>
    let rawPositions := schools.map
      (fun s => (s.id, calculateSchoolPosition s.descriptores weights))
    if normalizationMethod ≠ "none" then
      Except.ok (applyNormalization rawPositions normalizationMethod)
    else
      Except.ok (rawPositions.map (fun p => (p.1, JSNum.num p.2.1, JSNum.num p.2.2)))

/-! ### D3MapRenderer layout model

Pixel scales with the constructor defaults actually used by main.js
(new D3MapRenderer(container, data) gives width 1200, height 700,
padding 60): xScale maps [-1.1, 1.1] linearly onto [60, 1140] and yScale
maps [-1.1, 1.1] onto [640, 60] (inverted for SVG coordinates).
-/

/-- Linear x pixel scale: domain [-1.1, 1.1], range [60, 1140]. -/
def xScale (v : ℚ) : ℚ :=
  60 + (v + 11/10) * (5400/11)

/-- Linear y pixel scale: domain [-1.1, 1.1], range [640, 60]; the range is
inverted because SVG y grows downward. -/
def yScale (v : ℚ) : ℚ :=
  640 - (v + 11/10) * (2900/11)

/-- Inverse of the y pixel scale (yScale.invert). -/
def yScaleInvert (p : ℚ) : ℚ :=
  (640 - p) * (11/2900) - 11/10

/-- Per-tick boundary clamp of the renderNodes tick handler, x axis:
d.x = Math.max(minX + r, Math.min(maxX - r, d.x)) with r = 15,
minX = xScale(-0.95) and maxX = xScale(0.95). -/
def tickClampX (px : ℚ) : ℚ :=
  max (xScale (-19/20) + 15) (min (xScale (19/20) - 15) px)

/-- Per-tick boundary clamp of the renderNodes tick handler, y axis, exactly
as written in the source: d.y = Math.max(minY + r, Math.min(maxY - r, d.y))
with minY = yScale(-0.95) and maxY = yScale(0.95).  Because yScale is
inverted, minY is the larger pixel value, so the max always wins. -/
def tickClampY (py : ℚ) : ℚ :=
  max (yScale (-19/20) + 15) (min (yScale (19/20) - 15) py)

/-- Modelled from the spec: the d3.forceCollide collision interaction used
by renderNodes (d3 is an external library, absent from the repository).
Per the spec, the force is active only between pairs whose center distance
is below the sum of their radii; such a pair is pushed apart along the
separation direction, and pairs at or above the radii sum receive zero
force.  The push magnitude on an active pair is not needed by any claim and
is modelled as the raw separation vector. -/
def collisionForce (p1 p2 : ℚ × ℚ) (r1 r2 : ℚ) : ℚ × ℚ :=
  let dx := p1.1 - p2.1
  let dy := p1.2 - p2.2
  if dx * dx + dy * dy < (r1 + r2) * (r1 + r2) then (dx, dy) else (0, 0)

/-- Random micro-offset jitter applied to each target coordinate in
renderNodes and updateNodesWithTransition: offset = (r - 0.5) * 0.001 where
r is a fresh Math.random() draw, and the result is clamped to [-1, 1] via
Math.max(-1, Math.min(1, pos + offset)). -/
def jitteredTarget (pos r : ℚ) : ℚ :=
  max (-1) (min 1 (pos + (r - 1/2) * (1/1000)))

/-- Simulation node of the renderer: current pixel position, pixel target,
and whether a DOM element with the node class exists (resetNodesToTargets
only touches nodes whose element is present). -/
structure SimNode where
  id : String
  x : ℚ
  y : ℚ
  targetX : ℚ
  targetY : ℚ
  rendered : Bool
deriving DecidableEq

/-- Renderer state relevant to collision toggling: the simulation nodes and
the collisionEnabled flag. -/
structure RendererState where
  nodes : List SimNode
  collisionEnabled : Bool
deriving DecidableEq

/-- resetNodesToTargets: every node whose DOM element exists is snapped to
its target position; targets are untouched. -/
def resetNodesToTargets (nodes : List SimNode) : List SimNode :=
  nodes.map (fun n =>
    if n.rendered then { n with x := n.targetX, y := n.targetY } else n)

/-- setCollisionEnabled: enabling adds the collision and charge forces and
restarts the simulation (positions unchanged synchronously); disabling
removes the forces, stops the simulation and immediately resets every
rendered node to its target. -/
def setCollisionEnabled (st : RendererState) (enabled : Bool) : RendererState :=
  if enabled then { st with collisionEnabled := true }
  else { nodes := resetNodesToTargets st.nodes, collisionEnabled := false }

/-- One asynchronous simulation update while collisions are enabled: the
force simulation may move every node to an arbitrary new position, but
never changes ids, targets or the rendered flag. -/
def simUpdate (f : SimNode → ℚ × ℚ) (st : RendererState) : RendererState :=
  { st with nodes := st.nodes.map (fun n => { n with x := (f n).1, y := (f n).2 }) }

/-- A whole settling phase: any finite sequence of simulation updates. -/
def simRun (fs : List (SimNode → ℚ × ℚ)) (st : RendererState) : RendererState :=
  fs.foldl (fun s f => simUpdate f s) st

/-- Projection of a simulation node onto the data that simulation updates
and toggles never change: target position and rendered flag. -/
def trProj (n : SimNode) : (ℚ × ℚ) × Bool :=
  ((n.targetX, n.targetY), n.rendered)

/-- Finite percentile output for rank r among n values:
2((r - 1)/(n - 1)) - 1. -/
def rankToCoord (n r : ℕ) : K :=
  2 * (((r : K) - 1) / ((n : K) - 1)) - 1

/-- Map applied to a sorted pair when re-normalizing the percentile output:
replace the value by its finite percentile coordinate, keep the index. -/
def sortMapFun (values : List K) : (K × ℕ) → (K × ℕ) :=
  fun p => (rankToCoord values.length (posIn p (jsSorted values) + 1), p.2)

/-! ### Helper lemmas -/

/-- Clipping with max(-1, min(1, s)) lands in [-1, 1]. -/
theorem clip_mem_Icc (s : K) : -1 ≤ max (-1) (min 1 s) ∧ max (-1) (min 1 s) ≤ 1 :=
  ⟨le_max_left _ _, max_le (by norm_num) (min_le_left _ _)⟩

/-- The y tick clamp is constant: because yScale is inverted, the lower
pixel bound yScale(-0.95) + 15 exceeds the upper pixel bound
yScale(0.95) - 15, so the outer max always wins. -/
theorem tickClampY_const (py : ℚ) : tickClampY py = 6770 / 11 := by
  unfold tickClampY yScale
  rw [max_eq_left]
  · norm_num
  · refine le_trans (min_le_left _ _) ?_
    norm_num

/-! ### Claim theorems -/

/-- C4: for every weight preset in the preset table and every combination of
descriptor values (including values absent from the score tables), the
position computed by calculateSchoolPosition lies within [-1,1] on both
axes, because each axis sum is clipped to [-1,1]. -/
theorem C4_score_position_bounded (name : String) (w : WeightPreset K)
    (hw : lookupStr WEIGHT_PRESETS name = some w)
    (descriptors : List (String × String)) :
    -1 ≤ (calculateSchoolPosition descriptors w).1 ∧
    (calculateSchoolPosition descriptors w).1 ≤ 1 ∧
    -1 ≤ (calculateSchoolPosition descriptors w).2 ∧
    (calculateSchoolPosition descriptors w).2 ≤ 1 := by
  unfold calculateSchoolPosition
  exact ⟨(clip_mem_Icc _).1, (clip_mem_Icc _).2, (clip_mem_Icc _).1,
    (clip_mem_Icc _).2⟩

/-- Witness for C4: the base preset is in the table and the bounds hold for
a concrete descriptor set. -/
theorem C4_score_position_bounded_witness :
    lookupStr (WEIGHT_PRESETS (K := ℚ)) "base" = some ⟨baseAxis, baseAxis⟩ ∧
    (-1 ≤ (calculateSchoolPosition (K := ℚ)
        [("concepcion_economia", "individuos")] ⟨baseAxis, baseAxis⟩).1 ∧
     (calculateSchoolPosition (K := ℚ)
        [("concepcion_economia", "individuos")] ⟨baseAxis, baseAxis⟩).1 ≤ 1 ∧
     -1 ≤ (calculateSchoolPosition (K := ℚ)
        [("concepcion_economia", "individuos")] ⟨baseAxis, baseAxis⟩).2 ∧
     (calculateSchoolPosition (K := ℚ)
        [("concepcion_economia", "individuos")] ⟨baseAxis, baseAxis⟩).2 ≤ 1) :=
  ⟨by rfl, C4_score_position_bounded "base" _ (by rfl) _⟩

/-- C10: getWeightPreset on a name absent from the preset table does not
fail; it returns the configuration of the base preset, so its result equals
getWeightPreset applied to base. -/
theorem C10_getWeightPreset_unknown_is_base (name : String)
    (h : lookupStr (WEIGHT_PRESETS (K := K)) name = none) :
    getWeightPreset (K := K) name = getWeightPreset "base" ∧
    getWeightPreset (K := K) name = some ⟨baseAxis, baseAxis⟩ := by
  have hbase : lookupStr (WEIGHT_PRESETS (K := K)) "base" =
      some ⟨baseAxis, baseAxis⟩ := by rfl
  unfold getWeightPreset
  rw [h, hbase]
  exact ⟨rfl, rfl⟩

/-- Witness for C10 at a concrete unknown preset name. -/
theorem C10_getWeightPreset_unknown_is_base_witness :
    lookupStr (WEIGHT_PRESETS (K := ℚ)) "does-not-exist" = none ∧
    (getWeightPreset (K := ℚ) "does-not-exist" = getWeightPreset "base" ∧
     getWeightPreset (K := ℚ) "does-not-exist" = some ⟨baseAxis, baseAxis⟩) :=
  ⟨by rfl, C10_getWeightPreset_unknown_is_base "does-not-exist" (by rfl)⟩

/-- C3 is a code bug: the claim (simulated positions stay within [-1,1] on
both axes at the end of every tick) fails because the tick handler swaps the
min and max pixel bounds for the inverted y scale.  At the end of every tick
the y coordinate of every node, whatever it was, is pinned to the constant
pixel value yScale(-0.95) + 15 = 6770/11, which in normalized coordinates is
-146/145 < -1, outside the claimed range. -/
theorem C3_tick_clamp_y_escapes_bounds :
    ∀ py : ℚ, yScaleInvert (tickClampY py) = -146 / 145 ∧
      (-146 / 145 : ℚ) < -1 := by
  intro py
  rw [tickClampY_const]
  unfold yScaleInvert
  norm_num

/-- C1 is a code bug: a well-separated pair (modelled collision force zero,
as claimed) still does not settle at its targets.  Concretely, for one node
targeted at normalized (0,0) and another at (1,1), radii 30 each, the
collision force vanishes, yet at the end of every tick the first node sits
at normalized y = -146/145, more than 1 away from its target y = 0 — the
boundary clamp of the tick handler, not a collision force, moves it. -/
theorem C1_separated_pair_zero_force_yet_off_target :
    collisionForce (xScale 0, yScale 0) (xScale 1, yScale 1) 30 30 = (0, 0) ∧
    yScaleInvert (tickClampY (yScale 0)) = -146 / 145 ∧
    |(-146 / 145 : ℚ) - 0| > 1 / 2 := by
  refine ⟨?_, (C3_tick_clamp_y_escapes_bounds _).1, ?_⟩
  case refine_2 =>
    rw [sub_zero, abs_of_neg (by norm_num : (-146 / 145 : ℚ) < 0)]
    norm_num
  unfold collisionForce xScale yScale
  norm_num

/-- Counterexample to C8: the micro-offset jitter is drawn from
Math.random, not deterministic.  Recomputing the target of an item at
position 0 with the random draws 0 and 1 yields two different targets, and
two items both at position 1 with draws 0.9 and 0.8 receive bit-identical
clamped targets, so neither determinism nor pairwise distinctness holds. -/
theorem C8_jitter_random_counterexample :
    jitteredTarget 0 0 ≠ jitteredTarget 0 1 ∧
    jitteredTarget 1 (9/10) = jitteredTarget 1 (8/10) := by
  unfold jitteredTarget
  constructor
  · norm_num
  · norm_num

/-- C8 amended: the jitter is a random micro-offset, not a deterministic
tie-break.  What does hold: for any draw r in [0,1], the jittered target
stays within [-1,1] and within 0.0005 of the unjittered clamped coordinate
(so the jitter never displaces an item visibly). -/
theorem C8_jitter_bounded (pos r : ℚ) (h0 : 0 ≤ r) (h1 : r ≤ 1) :
    -1 ≤ jitteredTarget pos r ∧ jitteredTarget pos r ≤ 1 ∧
    |jitteredTarget pos r - max (-1) (min 1 pos)| ≤ 1 / 2000 := by
  refine ⟨le_max_left _ _, max_le (by norm_num) (min_le_left _ _), ?_⟩
  unfold jitteredTarget
  have hd : |pos + (r - 1/2) * (1/1000) - pos| ≤ 1 / 2000 := by
    rw [add_sub_cancel_left, abs_mul]
    rw [abs_of_pos (by norm_num : (0:ℚ) < 1/1000)]
    have : |r - 1/2| ≤ 1/2 := by
      rw [abs_le]
      constructor <;> linarith
    calc |r - 1/2| * (1/1000) ≤ (1/2) * (1/1000) := by
          exact mul_le_mul_of_nonneg_right this (by norm_num)
      _ = 1/2000 := by norm_num
  calc |max (-1) (min 1 (pos + (r - 1/2) * (1/1000))) - max (-1) (min 1 pos)|
      = |max (min 1 (pos + (r - 1/2) * (1/1000))) (-1) -
          max (min 1 pos) (-1)| := by rw [max_comm, max_comm (min 1 pos)]
    _ ≤ |min 1 (pos + (r - 1/2) * (1/1000)) - min 1 pos| :=
        abs_max_sub_max_le_abs _ _ _
    _ ≤ max |(1:ℚ) - 1| |pos + (r - 1/2) * (1/1000) - pos| :=
        abs_min_sub_min_le_max _ _ _ _
    _ = |pos + (r - 1/2) * (1/1000) - pos| := by
        rw [sub_self, abs_zero]
        exact max_eq_right (abs_nonneg _)
    _ ≤ 1 / 2000 := hd

/-- Witness for C8 amended at pos 0, draw 1/2. -/
theorem C8_jitter_bounded_witness :
    ((0:ℚ) ≤ 1/2 ∧ (1/2 : ℚ) ≤ 1) ∧
    (-1 ≤ jitteredTarget 0 (1/2) ∧ jitteredTarget 0 (1/2) ≤ 1 ∧
     |jitteredTarget 0 (1/2) - max (-1) (min 1 0)| ≤ 1 / 2000) :=
  ⟨⟨by norm_num, by norm_num⟩, C8_jitter_bounded 0 (1/2) (by norm_num) (by norm_num)⟩

/-- resetNodesToTargets changes only positions. -/
theorem trProj_reset (nodes : List SimNode) :
    (resetNodesToTargets nodes).map trProj = nodes.map trProj := by
  simp only [resetNodesToTargets, List.map_map]
  apply List.map_congr_left
  intro n _
  by_cases h : n.rendered = true <;> simp [trProj, h]

/-- A simulation update changes only positions. -/
theorem trProj_simUpdate (f : SimNode → ℚ × ℚ) (st : RendererState) :
    (simUpdate f st).nodes.map trProj = st.nodes.map trProj := by
  simp only [simUpdate, List.map_map]
  apply List.map_congr_left
  intro n _
  simp [trProj]

/-- A whole settling run changes only positions. -/
theorem trProj_simRun (fs : List (SimNode → ℚ × ℚ)) (st : RendererState) :
    (simRun fs st).nodes.map trProj = st.nodes.map trProj := by
  induction fs generalizing st with
  | nil => rfl
  | cons f fs ih =>
    show (simRun fs (simUpdate f st)).nodes.map trProj = _
    rw [ih, trProj_simUpdate]

/-- Node lists with equal projections have equal target lists. -/
theorem targets_eq_of_trProj {l1 l2 : List SimNode}
    (h : l1.map trProj = l2.map trProj) :
    l1.map (fun n => (n.targetX, n.targetY)) =
      l2.map (fun n => (n.targetX, n.targetY)) := by
  have h2 := congrArg (List.map Prod.fst) h
  simpa [List.map_map, trProj, Function.comp] using h2

/-- The all-rendered property transfers along equal projections. -/
theorem rendered_of_trProj {l1 l2 : List SimNode}
    (h : l1.map trProj = l2.map trProj)
    (hr : ∀ n ∈ l2, n.rendered = true) :
    ∀ n ∈ l1, n.rendered = true := by
  intro n hn
  have hm : trProj n ∈ l2.map trProj := h ▸ List.mem_map_of_mem trProj hn
  obtain ⟨m, hm2, hmeq⟩ := List.mem_map.mp hm
  have : m.rendered = n.rendered := congrArg Prod.snd hmeq
  rw [← this]
  exact hr m hm2

/-- When every node has a DOM element, resetNodesToTargets snaps every
position to the target. -/
theorem reset_positions (nodes : List SimNode)
    (h : ∀ n ∈ nodes, n.rendered = true) :
    (resetNodesToTargets nodes).map (fun n => (n.x, n.y)) =
      nodes.map (fun n => (n.targetX, n.targetY)) := by
  simp only [resetNodesToTargets, List.map_map]
  apply List.map_congr_left
  intro n hn
  simp [h n hn]

/-- C2: toggling collision mode off, then on, then off — with an arbitrary
finite settling run while collisions are on — returns every rendered item to
exactly its original target position (zero net drift), and re-enabling
starts from the target positions (the off toggle snapped them there), not
from positions a prior collision pass left behind. -/
theorem C2_collision_toggle_zero_drift (st : RendererState)
    (fs : List (SimNode → ℚ × ℚ)) (h : ∀ n ∈ st.nodes, n.rendered = true) :
    ((setCollisionEnabled (simRun fs
        (setCollisionEnabled (setCollisionEnabled st false) true)) false).nodes.map
      (fun n => (n.x, n.y)) =
      st.nodes.map (fun n => (n.targetX, n.targetY))) ∧
    ((setCollisionEnabled (setCollisionEnabled st false) true).nodes.map
      (fun n => (n.x, n.y)) =
      st.nodes.map (fun n => (n.targetX, n.targetY))) := by
  have hOn : setCollisionEnabled (setCollisionEnabled st false) true =
      ⟨resetNodesToTargets st.nodes, true⟩ := rfl
  have hproj : (simRun fs ⟨resetNodesToTargets st.nodes, true⟩).nodes.map trProj =
      st.nodes.map trProj := by
    rw [trProj_simRun]
    exact trProj_reset st.nodes
  have hrend : ∀ n ∈ (simRun fs ⟨resetNodesToTargets st.nodes, true⟩).nodes,
      n.rendered = true := rendered_of_trProj hproj h
  constructor
  · rw [hOn]
    show (resetNodesToTargets _).map _ = _
    rw [reset_positions _ hrend]
    exact targets_eq_of_trProj hproj
  · rw [hOn]
    exact reset_positions st.nodes h

/-- Witness for C2 at a one-node state and a one-update settling run. -/
theorem C2_collision_toggle_zero_drift_witness :
    (∀ n ∈ (⟨[⟨"a", 1, 2, 3, 4, true⟩], false⟩ : RendererState).nodes,
      n.rendered = true) ∧
    (((setCollisionEnabled (simRun [fun _ => (99, 99)]
        (setCollisionEnabled
          (setCollisionEnabled ⟨[⟨"a", 1, 2, 3, 4, true⟩], false⟩ false)
          true)) false).nodes.map (fun n => (n.x, n.y)) =
      ([⟨"a", 1, 2, 3, 4, true⟩] : List SimNode).map
        (fun n => (n.targetX, n.targetY))) ∧
    ((setCollisionEnabled
        (setCollisionEnabled ⟨[⟨"a", 1, 2, 3, 4, true⟩], false⟩ false)
        true).nodes.map (fun n => (n.x, n.y)) =
      ([⟨"a", 1, 2, 3, 4, true⟩] : List SimNode).map
        (fun n => (n.targetX, n.targetY)))) :=
  ⟨by decide,
   C2_collision_toggle_zero_drift ⟨[⟨"a", 1, 2, 3, 4, true⟩], false⟩
     [fun _ => (99, 99)] (by decide)⟩

/-- Counterexample to C9: a normalization name outside the mode set does
not fail fast with an error; the request succeeds (the switch default
silently returns the positions unchanged). -/
theorem C9_unknown_normalization_no_error :
    calculatePositions [] "base" "bogus" = Except.ok [] := by
  rfl

/-- C9 amended: an unknown preset name is rejected with an error before any
position is produced (so the current layout cannot be touched), but an
unknown normalization name is not an error: the positions are computed and
returned with no normalization applied (the same result as method none). -/
theorem C9_preset_error_normalization_fallback :
    (∀ (schools : List School) (name method : String),
       lookupStr (WEIGHT_PRESETS (K := ℝ)) name = none →
       calculatePositions schools name method =
         Except.error ("Unknown preset: " ++ name)) ∧
    (∀ (schools : List School) (name method : String) (w : WeightPreset ℝ),
       lookupStr (WEIGHT_PRESETS (K := ℝ)) name = some w →
       method ≠ "zscore" → method ≠ "percentile" → method ≠ "minmax" →
       calculatePositions schools name method =
         Except.ok ((schools.map
           (fun s => (s.id, calculateSchoolPosition s.descriptores w))).map
           (fun p => (p.1, JSNum.num p.2.1, JSNum.num p.2.2)))) := by
  constructor
  · intro schools name method h
    simp only [calculatePositions, h]
  · intro schools name method w hw h1 h2 h3
    simp only [calculatePositions, hw]
    by_cases hm : method = "none"
    · subst hm
      simp
    · rw [if_pos hm]
      simp only [applyNormalization, if_neg h1, if_neg h2, if_neg h3]

/-- Witness for C9 amended: the preset nope is rejected with an error, and
the unknown normalization bogus on the base preset succeeds with the raw
(empty) position list. -/
theorem C9_preset_error_normalization_fallback_witness :
    (lookupStr (WEIGHT_PRESETS (K := ℝ)) "nope" = none ∧
     calculatePositions [] "nope" "percentile" =
       Except.error ("Unknown preset: " ++ "nope")) ∧
    (lookupStr (WEIGHT_PRESETS (K := ℝ)) "base" = some ⟨baseAxis, baseAxis⟩ ∧
     calculatePositions [] "base" "bogus" = Except.ok []) :=
  by
  refine ⟨⟨by rfl, ?_⟩, ⟨by rfl, ?_⟩⟩
  · exact C9_preset_error_normalization_fallback.1 [] "nope" "percentile" (by rfl)
  · have h := C9_preset_error_normalization_fallback.2 [] "base" "bogus"
      ⟨baseAxis, baseAxis⟩ (by rfl) (by decide) (by decide) (by decide)
    simpa using h

/-! ### Percentile normalization: rank machinery -/

/-- The comparator pairLE is transitive. -/
theorem pairLE_trans (a b c : K × ℕ) (h1 : pairLE a b) (h2 : pairLE b c) :
    pairLE a c := by
  simp only [pairLE, decide_eq_true_eq] at h1 h2 ⊢
  exact le_trans h1 h2

/-- The comparator pairLE is total. -/
theorem pairLE_total (a b : K × ℕ) : pairLE a b || pairLE b a := by
  simp only [pairLE, Bool.or_eq_true, decide_eq_true_eq]
  exact le_total a.1 b.1

/-- posIn never exceeds the length. -/
theorem posIn_le_length (p : K × ℕ) (l : List (K × ℕ)) :
    posIn p l ≤ l.length := by
  induction l with
  | nil => simp [posIn]
  | cons q rest ih =>
    by_cases h : q = p <;> simp [posIn, h, Nat.succ_le_succ ih]

/-- posIn of a member is a valid index. -/
theorem posIn_lt_length {p : K × ℕ} {l : List (K × ℕ)} (h : p ∈ l) :
    posIn p l < l.length := by
  induction l with
  | nil => cases h
  | cons q rest ih =>
    by_cases hq : q = p
    · simp [posIn, hq]
    · have hrest : p ∈ rest := by
        rcases List.mem_cons.mp h with h2 | h2
        · exact absurd h2.symm hq
        · exact h2
      simpa [posIn, hq] using Nat.succ_lt_succ (ih hrest)

/-- The element at a posIn index is the looked-up pair. -/
theorem getElem_posIn {p : K × ℕ} {l : List (K × ℕ)}
    (h : posIn p l < l.length) : l[posIn p l] = p := by
  induction l with
  | nil => simp at h
  | cons q rest ih =>
    by_cases hq : q = p
    · simp [posIn, hq]
    · have h2 : posIn p rest < rest.length := by
        simpa [posIn, hq] using h
      simpa [posIn, hq] using ih h2

/-- In a list without duplicates, posIn inverts indexing. -/
theorem posIn_getElem {l : List (K × ℕ)} (hnd : l.Nodup) (i : ℕ)
    (h : i < l.length) : posIn l[i] l = i := by
  induction l generalizing i with
  | nil => simp at h
  | cons q rest ih =>
    rcases List.nodup_cons.mp hnd with ⟨hq, hrest⟩
    cases i with
    | zero => simp [posIn]
    | succ i =>
      have h2 : i < rest.length := Nat.lt_of_succ_lt_succ h
      have hmem : rest[i] ∈ rest := List.getElem_mem h2
      have hne : q ≠ rest[i] := fun he => hq (he ▸ hmem)
      simp only [List.getElem_cons_succ, posIn, if_neg hne]
      rw [ih hrest i h2]

/-- posIn is injective on members of a list. -/
theorem posIn_inj {a b : K × ℕ} {l : List (K × ℕ)} (ha : a ∈ l) (hb : b ∈ l)
    (h : posIn a l = posIn b l) : a = b := by
  have h1 : l.get ⟨posIn a l, posIn_lt_length ha⟩ = a := by
    rw [List.get_eq_getElem]
    exact getElem_posIn (posIn_lt_length ha)
  have h2 : l.get ⟨posIn b l, posIn_lt_length hb⟩ = b := by
    rw [List.get_eq_getElem]
    exact getElem_posIn (posIn_lt_length hb)
  rw [← h1, ← h2]
  exact congrArg l.get (Fin.ext h)

/-- Two positions of a list form a sublist. -/
theorem pair_getElem_sublist {α : Type} (l : List α) (i j : ℕ)
    (hij : i < j) (hj : j < l.length) :
    ∀ (hi : i < l.length), List.Sublist [l[i], l[j]] l := by
  intro hi
  have step1 : List.Sublist [l[j]] (List.drop (i + 1) l) := by
    rw [List.singleton_sublist, List.mem_iff_getElem]
    have hlen : j - (i + 1) < (List.drop (i + 1) l).length := by
      rw [List.length_drop]
      omega
    refine ⟨j - (i + 1), hlen, ?_⟩
    rw [List.getElem_drop]
    congr 1
    omega
  have step2 : List.Sublist [l[i], l[j]] (l[i] :: List.drop (i + 1) l) :=
    List.Sublist.cons₂ _ step1
  have step3 : l[i] :: List.drop (i + 1) l = List.drop i l :=
    (List.drop_eq_getElem_cons hi).symm
  exact (step3 ▸ step2).trans (List.drop_sublist i l)

/-- In a list without duplicates, the first element of an embedded pair
sits strictly before the second. -/
theorem posIn_lt_of_pair_sublist {a b : K × ℕ} {l : List (K × ℕ)}
    (hnd : l.Nodup) (hab : List.Sublist [a, b] l) : posIn a l < posIn b l := by
  induction l with
  | nil => cases hab
  | cons q rest ih =>
    rcases List.nodup_cons.mp hnd with ⟨hq, hrest⟩
    cases hab with
    | cons _ hsub =>
      have ha : a ∈ rest := hsub.subset (List.mem_cons_self a [b])
      have hb : b ∈ rest := hsub.subset (List.mem_cons_of_mem a (List.mem_cons_self b []))
      have hqa : q ≠ a := fun he => hq (he ▸ ha)
      have hqb : q ≠ b := fun he => hq (he ▸ hb)
      simpa [posIn, hqa, hqb] using Nat.succ_lt_succ (ih hrest hsub)
    | cons₂ _ hsub =>
      have hb : b ∈ rest := List.singleton_sublist.mp hsub
      have hab2 : a ≠ b := fun he => hq (he ▸ hb)
      simp only [posIn, if_pos rfl, if_neg hab2]
      exact Nat.succ_pos _

/-! ### Percentile normalization: the indexed and sorted pair lists -/

/-- jsIndexed preserves length. -/
theorem length_jsIndexed (values : List K) :
    (jsIndexed values).length = values.length := by
  simp [jsIndexed]

/-- jsIndexed pairs each value with its index. -/
theorem getElem_jsIndexed (values : List K) (i : ℕ) (h : i < values.length) :
    ∀ (h2 : i < (jsIndexed values).length), (jsIndexed values)[i] = (values[i], i) := by
  intro h2
  simp [jsIndexed]

/-- The indexed pairs are pairwise distinct (their indices are). -/
theorem nodup_jsIndexed (values : List K) : (jsIndexed values).Nodup := by
  apply List.Nodup.of_map Prod.snd
  have hcomp : (jsIndexed values).map Prod.snd = List.range values.length := by
    simp only [jsIndexed, List.map_map]
    have : (Prod.snd ∘ fun p : ℕ × K => (p.2, p.1)) = Prod.fst := rfl
    rw [this, List.enum_map_fst]
  rw [hcomp]
  exact List.nodup_range _

/-- The sorted pair list is a permutation of the indexed one. -/
theorem jsSorted_perm (values : List K) :
    (jsSorted values).Perm (jsIndexed values) :=
  List.mergeSort_perm _ _

/-- The sorted pair list has no duplicates. -/
theorem nodup_jsSorted (values : List K) : (jsSorted values).Nodup :=
  ((jsSorted_perm values).nodup_iff).mpr (nodup_jsIndexed values)

/-- The sorted pair list has the same length as the input. -/
theorem length_jsSorted (values : List K) :
    (jsSorted values).length = values.length := by
  rw [(jsSorted_perm values).length_eq, length_jsIndexed]

/-- The sorted pair list is sorted by value. -/
theorem pairwise_jsSorted (values : List K) :
    (jsSorted values).Pairwise (fun a b => a.1 ≤ b.1) := by
  have h := @List.sorted_mergeSort (K × ℕ) pairLE pairLE_trans pairLE_total
    (jsIndexed values)
  exact h.imp (fun hab => by simpa [pairLE] using hab)

/-- Each pair of the indexed list appears in the sorted list. -/
theorem pair_mem_jsSorted (values : List K) (i : ℕ) (h : i < values.length) :
    (values[i], i) ∈ jsSorted values := by
  have h2 : i < (jsIndexed values).length := by
    rw [length_jsIndexed]; exact h
  have hmem : (values[i], i) ∈ jsIndexed values := by
    rw [← getElem_jsIndexed values i h h2]
    exact List.getElem_mem h2
  exact ((jsSorted_perm values).mem_iff).mpr hmem

/-- Every assigned rank is between 1 and n. -/
theorem rank_bounds (values : List K) (r : ℕ)
    (hr : r ∈ percentileRanks values) : 1 ≤ r ∧ r ≤ values.length := by
  obtain ⟨p, hp, hpr⟩ := List.mem_map.mp hr
  have hmem : p ∈ jsSorted values := ((jsSorted_perm values).mem_iff).mpr hp
  have hlt := posIn_lt_length hmem
  rw [length_jsSorted] at hlt
  omega

/-- Rank 1 is assigned to some item (the head of the sorted list). -/
theorem rank_one_mem (values : List K) (h : values ≠ []) :
    1 ∈ percentileRanks values := by
  cases hs : jsSorted values with
  | nil =>
    exfalso
    have hlen := length_jsSorted values
    rw [hs] at hlen
    exact h (List.length_eq_zero.mp hlen.symm)
  | cons p t =>
    have hp0 : posIn p (jsSorted values) = 0 := by
      rw [hs]; simp [posIn]
    have hpmem : p ∈ jsIndexed values := ((jsSorted_perm values).mem_iff).mp
      (by rw [hs]; exact List.mem_cons_self p t)
    exact List.mem_map.mpr ⟨p, hpmem, by rw [hp0]⟩

/-- Rank n is assigned to some item (the last of the sorted list). -/
theorem rank_top_mem (values : List K) (h : values ≠ []) :
    values.length ∈ percentileRanks values := by
  have hn : 0 < values.length := List.length_pos.mpr h
  have hlen : values.length - 1 < (jsSorted values).length := by
    rw [length_jsSorted]; omega
  have hq : posIn (jsSorted values)[values.length - 1] (jsSorted values) =
      values.length - 1 := posIn_getElem (nodup_jsSorted values) _ hlen
  have hqmem : (jsSorted values)[values.length - 1] ∈ jsIndexed values :=
    ((jsSorted_perm values).mem_iff).mp (List.getElem_mem hlen)
  refine List.mem_map.mpr ⟨(jsSorted values)[values.length - 1], hqmem, ?_⟩
  rw [hq]
  omega

/-- The rank list has the length of the input. -/
theorem length_percentileRanks (values : List K) :
    (percentileRanks values).length = values.length := by
  rw [percentileRanks, List.length_map, length_jsIndexed]

/-- The percentile output has the length of the input. -/
theorem length_percentileNormalize (values : List K) :
    (percentileNormalize values).length = values.length := by
  rw [percentileNormalize, List.length_map, length_percentileRanks]

/-- Entry i of the rank list is the sorted position of pair (values[i], i)
plus one. -/
theorem getElem_percentileRanks (values : List K) (i : ℕ)
    (hi : i < values.length) :
    ∀ (h2 : i < (percentileRanks values).length),
    (percentileRanks values)[i] = posIn (values[i], i) (jsSorted values) + 1 := by
  intro h2
  have h3 : i < (jsIndexed values).length := by
    rw [length_jsIndexed]; exact hi
  simp only [percentileRanks, List.getElem_map]
  rw [getElem_jsIndexed values i hi h3]

/-- Sorted positions respect the value order, with ties broken by the
original input order (stability of the sort). -/
theorem rank_lt_rank (values : List K) (i j : ℕ) (hi : i < values.length)
    (hj : j < values.length)
    (hord : values[i] < values[j] ∨ (values[i] = values[j] ∧ i < j)) :
    posIn (values[i], i) (jsSorted values) <
      posIn (values[j], j) (jsSorted values) := by
  have hmi : (values[i], i) ∈ jsSorted values := pair_mem_jsSorted values i hi
  have hmj : (values[j], j) ∈ jsSorted values := pair_mem_jsSorted values j hj
  have hpi := posIn_lt_length hmi
  have hpj := posIn_lt_length hmj
  rcases hord with hlt | ⟨heq, hij⟩
  · rcases Nat.lt_trichotomy (posIn (values[i], i) (jsSorted values))
      (posIn (values[j], j) (jsSorted values)) with h | h | h
    · exact h
    · exfalso
      have hpair : (values[i], i) = (values[j], j) := posIn_inj hmi hmj h
      exact absurd (congrArg Prod.fst hpair) (ne_of_lt hlt)
    · exfalso
      have hle := (List.pairwise_iff_getElem.mp (pairwise_jsSorted values))
        _ _ hpj hpi h
      rw [getElem_posIn hpj, getElem_posIn hpi] at hle
      exact absurd hle (not_le.mpr hlt)
  · apply posIn_lt_of_pair_sublist (nodup_jsSorted values)
    have hps : List.Pairwise (fun a b => pairLE a b = true)
        [(values[i], i), (values[j], j)] := by
      refine List.Pairwise.cons ?_ (List.pairwise_singleton _ _)
      intro b hb
      rw [List.mem_singleton.mp hb]
      simp [pairLE, heq]
    have h2i : i < (jsIndexed values).length := by
      rw [length_jsIndexed]; exact hi
    have h2j : j < (jsIndexed values).length := by
      rw [length_jsIndexed]; exact hj
    have hsub : List.Sublist [(values[i], i), (values[j], j)]
        (jsIndexed values) := by
      have hsub2 := pair_getElem_sublist (jsIndexed values) i j hij h2j h2i
      rwa [getElem_jsIndexed values i hi h2i,
        getElem_jsIndexed values j hj h2j] at hsub2
    exact List.sublist_mergeSort pairLE_trans pairLE_total hps hsub

/-- rankToCoord is strictly monotone in the rank for n > 1. -/
theorem rankToCoord_strictMono (n : ℕ) (hn : 1 < n) {r s : ℕ} (hrs : r < s) :
    rankToCoord (K := K) n r < rankToCoord n s := by
  have hd : (0 : K) < (n : K) - 1 := by
    have h1 : (1 : K) < (n : K) := by exact_mod_cast hn
    linarith
  have hnum : ((r : K) - 1) < ((s : K) - 1) := by
    have h1 : (r : K) < (s : K) := by exact_mod_cast hrs
    linarith
  have h2 : ((r : K) - 1) / ((n : K) - 1) < ((s : K) - 1) / ((n : K) - 1) := by
    gcongr
  unfold rankToCoord
  linarith

/-- rankToCoord maps ranks 1..n into [-1, 1] for n > 1. -/
theorem rankToCoord_bounds (n r : ℕ) (hn : 1 < n) (h1 : 1 ≤ r) (h2 : r ≤ n) :
    -1 ≤ rankToCoord (K := K) n r ∧ rankToCoord (K := K) n r ≤ 1 := by
  have hd : (0 : K) < (n : K) - 1 := by
    have hx : (1 : K) < (n : K) := by exact_mod_cast hn
    linarith
  have hx0 : (0 : K) ≤ (r : K) - 1 := by
    have hx : (1 : K) ≤ (r : K) := by exact_mod_cast h1
    linarith
  have hx1 : (r : K) - 1 ≤ (n : K) - 1 := by
    have hx : (r : K) ≤ (n : K) := by exact_mod_cast h2
    linarith
  have q0 : 0 ≤ ((r : K) - 1) / ((n : K) - 1) := div_nonneg hx0 hd.le
  have q1 : ((r : K) - 1) / ((n : K) - 1) ≤ 1 := (div_le_one hd).mpr hx1
  unfold rankToCoord
  constructor <;> linarith

/-- For n > 1 the percentile output is the rank list pushed through
rankToCoord (the divisions are all finite). -/
theorem percentileNormalize_eq_map_rank (values : List K)
    (hn : 1 < values.length) :
    percentileNormalize values =
      (percentileRanks values).map
        (fun r => JSNum.num (rankToCoord values.length r)) := by
  unfold percentileNormalize
  apply List.map_congr_left
  intro r _
  have hd : ((values.length : K) - 1) ≠ 0 := by
    have hx : (1 : K) < (values.length : K) := by exact_mod_cast hn
    intro hzero
    linarith
  simp [jsDiv, hd, jsAffine, rankToCoord]

/-- A nonempty-length list is not nil. -/
theorem ne_nil_of_one_lt {values : List K} (hn : 1 < values.length) :
    values ≠ [] := by
  intro h
  rw [h] at hn
  simp at hn

/-- The percentile output attains -1 for n > 1. -/
theorem percentile_neg_one_mem (values : List K) (hn : 1 < values.length) :
    JSNum.num (-1 : K) ∈ percentileNormalize values := by
  rw [percentileNormalize_eq_map_rank values hn]
  refine List.mem_map.mpr ⟨1, rank_one_mem values (ne_nil_of_one_lt hn), ?_⟩
  unfold rankToCoord
  norm_num

/-- The percentile output attains +1 for n > 1. -/
theorem percentile_one_mem (values : List K) (hn : 1 < values.length) :
    JSNum.num (1 : K) ∈ percentileNormalize values := by
  rw [percentileNormalize_eq_map_rank values hn]
  refine List.mem_map.mpr
    ⟨values.length, rank_top_mem values (ne_nil_of_one_lt hn), ?_⟩
  have hd : ((values.length : K) - 1) ≠ 0 := by
    have hx : (1 : K) < (values.length : K) := by exact_mod_cast hn
    intro hzero
    linarith
  unfold rankToCoord
  rw [div_self hd]
  norm_num

/-- Every percentile output for n > 1 is finite and within [-1, 1]. -/
theorem percentile_out_bounds (values : List K) (hn : 1 < values.length) :
    ∀ o ∈ percentileNormalize values,
      ∃ q : K, o = JSNum.num q ∧ -1 ≤ q ∧ q ≤ 1 := by
  intro o ho
  rw [percentileNormalize_eq_map_rank values hn] at ho
  obtain ⟨r, hr, ho⟩ := List.mem_map.mp ho
  obtain ⟨h1, h2⟩ := rank_bounds values r hr
  obtain ⟨b1, b2⟩ := rankToCoord_bounds (K := K) values.length r hn h1 h2
  exact ⟨rankToCoord values.length r, ho.symm, b1, b2⟩

/-- The finite values of the percentile output, in input order. -/
theorem percentile_out_vals (values : List K) (hn : 1 < values.length) :
    (percentileNormalize values).map jsToNum =
      (jsIndexed values).map
        (fun p => rankToCoord values.length (posIn p (jsSorted values) + 1)) := by
  rw [percentileNormalize_eq_map_rank values hn, List.map_map,
    percentileRanks, List.map_map]
  apply List.map_congr_left
  intro p _
  rfl

/-- Element i of the percentile output, as a finite coordinate. -/
theorem percentile_out_getElem (values : List K) (hn : 1 < values.length)
    (i : ℕ) (hi : i < values.length) :
    ∀ (h2 : i < (percentileNormalize values).length),
    (percentileNormalize values)[i] =
      JSNum.num (rankToCoord values.length
        (posIn (values[i], i) (jsSorted values) + 1)) := by
  intro h2
  have h3 : i < (percentileRanks values).length := by
    rw [length_percentileRanks]; exact hi
  simp only [percentileNormalize_eq_map_rank values hn, List.getElem_map]
  rw [getElem_percentileRanks values i hi h3]

/-- A list that is strictly sorted on first components has no duplicates. -/
theorem nodup_of_pairwise_lt_fst {l : List (K × ℕ)}
    (h : l.Pairwise (fun a b => a.1 < b.1)) : l.Nodup :=
  h.imp (fun hab heq => absurd (congrArg Prod.fst heq) (ne_of_lt hab))

/-- A list that is strictly sorted on first components has pairwise
distinct first components. -/
theorem fst_nodup_of_pairwise_lt {l : List (K × ℕ)}
    (h : l.Pairwise (fun a b => a.1 < b.1)) : (l.map Prod.fst).Nodup :=
  List.pairwise_map.mpr (h.imp (fun hab => ne_of_lt hab))

/-- Weak sortedness plus distinct first components gives strict
sortedness. -/
theorem pairwise_lt_of_le_of_fst_nodup {l : List (K × ℕ)}
    (h1 : l.Pairwise (fun a b => a.1 ≤ b.1))
    (h2 : (l.map Prod.fst).Nodup) :
    l.Pairwise (fun a b => a.1 < b.1) := by
  have h3 : l.Pairwise (fun a b => a.1 ≠ b.1) := List.pairwise_map.mp h2
  exact (h1.and h3).imp (fun hab => lt_of_le_of_ne hab.1 hab.2)

/-- Pushing the sorted pair list through sortMapFun yields a strictly
sorted list: position k carries the coordinate of rank k + 1. -/
theorem sortMap_sorted_strict (values : List K) (hn : 1 < values.length) :
    ((jsSorted values).map (sortMapFun values)).Pairwise
      (fun a b => a.1 < b.1) := by
  rw [List.pairwise_iff_getElem]
  intro k1 k2 hk1 hk2 hlt
  rw [List.length_map] at hk1 hk2
  have e1 : posIn (jsSorted values)[k1] (jsSorted values) = k1 :=
    posIn_getElem (nodup_jsSorted values) k1 hk1
  have e2 : posIn (jsSorted values)[k2] (jsSorted values) = k2 :=
    posIn_getElem (nodup_jsSorted values) k2 hk2
  simp only [List.getElem_map, sortMapFun, e1, e2]
  exact rankToCoord_strictMono values.length hn (Nat.succ_lt_succ hlt)

/-- Re-indexing the percentile output values pairs them exactly as
sortMapFun maps the original indexed pairs. -/
theorem jsIndexed_out_eq (values : List K) (hn : 1 < values.length) :
    jsIndexed ((percentileNormalize values).map jsToNum) =
      (jsIndexed values).map (sortMapFun values) := by
  have hw : ((percentileNormalize values).map jsToNum).length = values.length := by
    rw [List.length_map, length_percentileNormalize]
  apply List.ext_getElem
  · rw [length_jsIndexed, hw, List.length_map, length_jsIndexed]
  · intro k h1 h2
    have hk : k < values.length := by
      rw [length_jsIndexed, hw] at h1
      exact h1
    have hkw : k < ((percentileNormalize values).map jsToNum).length := by
      rw [hw]; exact hk
    have hkj : k < (jsIndexed values).length := by
      rw [length_jsIndexed]; exact hk
    rw [getElem_jsIndexed _ k hkw h1]
    have hvals := percentile_out_vals values hn
    have hout : ((percentileNormalize values).map jsToNum)[k] =
        rankToCoord values.length
          (posIn ((jsIndexed values)[k]) (jsSorted values) + 1) := by
      simp only [hvals, List.getElem_map]
    rw [hout, List.getElem_map]
    simp only [sortMapFun]
    rw [getElem_jsIndexed values k hk hkj]

/-- Sorting the re-indexed percentile output gives exactly the mapped
sorted list (there is a unique strictly-sorted arrangement). -/
theorem jsSorted_out_eq (values : List K) (hn : 1 < values.length) :
    jsSorted ((percentileNormalize values).map jsToNum) =
      (jsSorted values).map (sortMapFun values) := by
  haveI inst : IsAntisymm (K × ℕ) (fun a b : K × ℕ => a.1 < b.1) :=
    ⟨fun a b h1 h2 => absurd h2 (lt_asymm h1)⟩
  have hperm : (jsSorted ((percentileNormalize values).map jsToNum)).Perm
      ((jsSorted values).map (sortMapFun values)) := by
    refine (jsSorted_perm _).trans ?_
    rw [jsIndexed_out_eq values hn]
    exact ((jsSorted_perm values).map (sortMapFun values)).symm
  have hsorted2 : ((jsSorted values).map (sortMapFun values)).Pairwise
      (fun a b => a.1 < b.1) := sortMap_sorted_strict values hn
  have hfst : ((jsSorted ((percentileNormalize values).map jsToNum)).map
      Prod.fst).Nodup := by
    have hn2 : (((jsSorted values).map (sortMapFun values)).map Prod.fst).Nodup :=
      fst_nodup_of_pairwise_lt hsorted2
    exact ((hperm.map Prod.fst).nodup_iff).mpr hn2
  have hsorted1 : (jsSorted ((percentileNormalize values).map jsToNum)).Pairwise
      (fun a b => a.1 < b.1) :=
    pairwise_lt_of_le_of_fst_nodup (pairwise_jsSorted _) hfst
  exact List.eq_of_perm_of_sorted hperm hsorted1 hsorted2

/-- Re-ranking the percentile output reproduces the original ranks. -/
theorem percentileRanks_out_eq (values : List K) (hn : 1 < values.length) :
    percentileRanks ((percentileNormalize values).map jsToNum) =
      percentileRanks values := by
  have hmapnodup : ((jsSorted values).map (sortMapFun values)).Nodup :=
    nodup_of_pairwise_lt_fst (sortMap_sorted_strict values hn)
  rw [percentileRanks, percentileRanks, jsIndexed_out_eq values hn,
    jsSorted_out_eq values hn, List.map_map]
  apply List.map_congr_left
  intro p hp
  have hpmem : p ∈ jsSorted values := ((jsSorted_perm values).mem_iff).mpr hp
  have hpi : posIn p (jsSorted values) < (jsSorted values).length :=
    posIn_lt_length hpmem
  have hpi2 : posIn p (jsSorted values) <
      ((jsSorted values).map (sortMapFun values)).length := by
    rw [List.length_map]; exact hpi
  have hFp : sortMapFun values p =
      ((jsSorted values).map (sortMapFun values))[posIn p (jsSorted values)] := by
    rw [List.getElem_map]
    exact congrArg (sortMapFun values) (getElem_posIn hpi).symm
  simp only [Function.comp_apply]
  rw [hFp, posIn_getElem hmapnodup _ hpi2]

/-- Percentile normalization applied to its own (finite) output reproduces
the output, for n > 1. -/
theorem percentile_idempotent (values : List K) (hn : 1 < values.length) :
    percentileNormalize ((percentileNormalize values).map jsToNum) =
      percentileNormalize values := by
  have hw : ((percentileNormalize values).map jsToNum).length = values.length := by
    rw [List.length_map, length_percentileNormalize]
  have hn2 : 1 < ((percentileNormalize values).map jsToNum).length := by
    rw [hw]; exact hn
  rw [percentileNormalize_eq_map_rank _ hn2,
    percentileRanks_out_eq values hn, hw]
  exact (percentileNormalize_eq_map_rank values hn).symm

/-- C5: for n > 1, percentile normalization attains exactly -1 and +1 with
all outputs finite in [-1,1]; it is order-preserving (strictly, with ties
broken by original input order); and it is idempotent on its own output. -/
theorem C5_percentile_span_order_idempotent (values : List K)
    (hn : 1 < values.length) :
    (JSNum.num (-1 : K) ∈ percentileNormalize values ∧
     JSNum.num (1 : K) ∈ percentileNormalize values ∧
     ∀ o ∈ percentileNormalize values,
       ∃ q : K, o = JSNum.num q ∧ -1 ≤ q ∧ q ≤ 1) ∧
    (∀ (i j : ℕ) (hi : i < values.length) (hj : j < values.length)
       (hi2 : i < (percentileNormalize values).length)
       (hj2 : j < (percentileNormalize values).length),
       (values[i] < values[j] ∨ (values[i] = values[j] ∧ i < j)) →
       jsToNum ((percentileNormalize values)[i]) <
         jsToNum ((percentileNormalize values)[j])) ∧
    percentileNormalize ((percentileNormalize values).map jsToNum) =
      percentileNormalize values := by
  refine ⟨⟨percentile_neg_one_mem values hn, percentile_one_mem values hn,
    percentile_out_bounds values hn⟩, ?_, percentile_idempotent values hn⟩
  intro i j hi hj hi2 hj2 hord
  rw [percentile_out_getElem values hn i hi hi2,
    percentile_out_getElem values hn j hj hj2]
  show rankToCoord values.length _ < rankToCoord values.length _
  exact rankToCoord_strictMono values.length hn
    (Nat.succ_lt_succ (rank_lt_rank values i j hi hj hord))

/-- Witness for C5 at the two-element list [2, 1]. -/
theorem C5_percentile_span_order_idempotent_witness :
    1 < ([2, 1] : List ℚ).length ∧
    ((JSNum.num (-1 : ℚ) ∈ percentileNormalize ([2, 1] : List ℚ) ∧
      JSNum.num (1 : ℚ) ∈ percentileNormalize ([2, 1] : List ℚ) ∧
      ∀ o ∈ percentileNormalize ([2, 1] : List ℚ),
        ∃ q : ℚ, o = JSNum.num q ∧ -1 ≤ q ∧ q ≤ 1) ∧
     (∀ (i j : ℕ) (hi : i < ([2, 1] : List ℚ).length)
        (hj : j < ([2, 1] : List ℚ).length)
        (hi2 : i < (percentileNormalize ([2, 1] : List ℚ)).length)
        (hj2 : j < (percentileNormalize ([2, 1] : List ℚ)).length),
        (([2, 1] : List ℚ)[i] < ([2, 1] : List ℚ)[j] ∨
         (([2, 1] : List ℚ)[i] = ([2, 1] : List ℚ)[j] ∧ i < j)) →
        jsToNum ((percentileNormalize ([2, 1] : List ℚ))[i]) <
          jsToNum ((percentileNormalize ([2, 1] : List ℚ))[j])) ∧
     percentileNormalize
         ((percentileNormalize ([2, 1] : List ℚ)).map jsToNum) =
       percentileNormalize ([2, 1] : List ℚ)) :=
  ⟨by decide, C5_percentile_span_order_idempotent ([2, 1] : List ℚ) (by decide)⟩

/-- C6 is a code bug: percentile normalization of a single-element list
divides zero by zero ((rank - 1)/(n - 1) with rank = n = 1), producing NaN
instead of the specified finite value 0, and the non-finite coordinate is
returned downstream. -/
theorem C6_percentile_singleton_nan :
    percentileNormalize ([5] : List ℚ) = [JSNum.nan] := by
  have h1 : jsIndexed ([5] : List ℚ) = [(5, 0)] := rfl
  have h2 : jsSorted ([5] : List ℚ) = [(5, 0)] := by
    rw [jsSorted, h1]
    exact List.mergeSort_singleton _
  rw [percentileNormalize, percentileRanks, h1, h2]
  norm_num [posIn, jsDiv, jsAffine]

/-! ### MinMax and ZScore spanning facts -/

/-- Folding min never exceeds the initial accumulator. -/
theorem foldl_min_le_init (xs : List K) (a : K) : xs.foldl min a ≤ a := by
  induction xs generalizing a with
  | nil => exact le_refl a
  | cons y ys ih => exact le_trans (ih (min a y)) (min_le_left a y)

/-- Folding min is a lower bound of the folded elements. -/
theorem foldl_min_le_mem (xs : List K) (a : K) :
    ∀ y ∈ xs, xs.foldl min a ≤ y := by
  induction xs generalizing a with
  | nil => intro y hy; cases hy
  | cons z zs ih =>
    intro y hy
    rcases List.mem_cons.mp hy with h | h
    · subst h
      exact le_trans (foldl_min_le_init zs (min a y)) (min_le_right a y)
    · exact ih (min a z) y h

/-- Folding min returns the accumulator or one of the elements. -/
theorem foldl_min_mem (xs : List K) (a : K) :
    xs.foldl min a = a ∨ xs.foldl min a ∈ xs := by
  induction xs generalizing a with
  | nil => exact Or.inl rfl
  | cons y ys ih =>
    rcases ih (min a y) with h | h
    · rcases min_choice a y with h2 | h2
      · exact Or.inl (by rw [List.foldl_cons, h, h2])
      · exact Or.inr (by rw [List.foldl_cons, h, h2]; exact List.mem_cons_self y ys)
    · exact Or.inr (List.mem_cons_of_mem y h)

/-- Folding max is at least the initial accumulator. -/
theorem le_foldl_max_init (xs : List K) (a : K) : a ≤ xs.foldl max a := by
  induction xs generalizing a with
  | nil => exact le_refl a
  | cons y ys ih => exact le_trans (le_max_left a y) (ih (max a y))

/-- Folding max is an upper bound of the folded elements. -/
theorem mem_le_foldl_max (xs : List K) (a : K) :
    ∀ y ∈ xs, y ≤ xs.foldl max a := by
  induction xs generalizing a with
  | nil => intro y hy; cases hy
  | cons z zs ih =>
    intro y hy
    rcases List.mem_cons.mp hy with h | h
    · subst h
      exact le_trans (le_max_right a y) (le_foldl_max_init zs (max a y))
    · exact ih (max a z) y h

/-- Folding max returns the accumulator or one of the elements. -/
theorem foldl_max_mem (xs : List K) (a : K) :
    xs.foldl max a = a ∨ xs.foldl max a ∈ xs := by
  induction xs generalizing a with
  | nil => exact Or.inl rfl
  | cons y ys ih =>
    rcases ih (max a y) with h | h
    · rcases max_choice a y with h2 | h2
      · exact Or.inl (by rw [List.foldl_cons, h, h2])
      · exact Or.inr (by rw [List.foldl_cons, h, h2]; exact List.mem_cons_self y ys)
    · exact Or.inr (List.mem_cons_of_mem y h)

/-- The minimum of a nonempty list is one of its elements. -/
theorem listMin_mem (values : List K) (h : values ≠ []) :
    listMin values ∈ values := by
  cases values with
  | nil => exact absurd rfl h
  | cons x xs =>
    rcases foldl_min_mem xs x with h2 | h2
    · rw [listMin, h2]; exact List.mem_cons_self x xs
    · exact List.mem_cons_of_mem x h2

/-- The minimum bounds every element from below. -/
theorem listMin_le (values : List K) {v : K} (hv : v ∈ values) :
    listMin values ≤ v := by
  cases values with
  | nil => cases hv
  | cons x xs =>
    rcases List.mem_cons.mp hv with h | h
    · subst h
      exact foldl_min_le_init xs v
    · exact foldl_min_le_mem xs x v h

/-- The maximum of a nonempty list is one of its elements. -/
theorem listMax_mem (values : List K) (h : values ≠ []) :
    listMax values ∈ values := by
  cases values with
  | nil => exact absurd rfl h
  | cons x xs =>
    rcases foldl_max_mem xs x with h2 | h2
    · rw [listMax, h2]; exact List.mem_cons_self x xs
    · exact List.mem_cons_of_mem x h2

/-- The maximum bounds every element from above. -/
theorem le_listMax (values : List K) {v : K} (hv : v ∈ values) :
    v ≤ listMax values := by
  cases values with
  | nil => cases hv
  | cons x xs =>
    rcases List.mem_cons.mp hv with h | h
    · subst h
      exact le_foldl_max_init xs v
    · exact mem_le_foldl_max xs x v h

/-- MinMax normalization of a nonempty, non-constant list attains -1 and
+1 and stays within [-1, 1]. -/
theorem minmax_spans (values : List K) (hne : values ≠ [])
    (hneq : listMax values ≠ listMin values) :
    (-1 : K) ∈ minmaxNormalize values ∧ (1 : K) ∈ minmaxNormalize values ∧
    ∀ o ∈ minmaxNormalize values, -1 ≤ o ∧ o ≤ 1 := by
  have hminmem := listMin_mem values hne
  have hmaxmem := listMax_mem values hne
  have hle : listMin values ≤ listMax values := listMin_le values hmaxmem
  have hlt : listMin values < listMax values :=
    lt_of_le_of_ne hle (fun h => hneq h.symm)
  have hd : (0 : K) < listMax values - listMin values := by linarith
  unfold minmaxNormalize
  rw [if_neg hneq, List.map_map]
  refine ⟨?_, ?_, ?_⟩
  · refine List.mem_map.mpr ⟨listMin values, hminmem, ?_⟩
    show 2 * ((listMin values - listMin values) /
      (listMax values - listMin values)) - 1 = -1
    rw [sub_self, zero_div]
    norm_num
  · refine List.mem_map.mpr ⟨listMax values, hmaxmem, ?_⟩
    show 2 * ((listMax values - listMin values) /
      (listMax values - listMin values)) - 1 = 1
    rw [div_self (ne_of_gt hd)]
    norm_num
  · intro o ho
    obtain ⟨v, hv, heq⟩ := List.mem_map.mp ho
    have hv1 : listMin values ≤ v := listMin_le values hv
    have hv2 : v ≤ listMax values := le_listMax values hv
    have q0 : 0 ≤ (v - listMin values) / (listMax values - listMin values) :=
      div_nonneg (by linarith) hd.le
    have q1 : (v - listMin values) / (listMax values - listMin values) ≤ 1 :=
      (div_le_one hd).mpr (by linarith)
    have heq2 : o = 2 * ((v - listMin values) /
        (listMax values - listMin values)) - 1 := heq.symm
    constructor <;> rw [heq2] <;> linarith

/-- Every zscore output is within [-1, 1] (all zeros for zero deviation,
clipped otherwise). -/
theorem zscore_bounds (values : List ℝ) (o : ℝ)
    (ho : o ∈ zscoreNormalize values) : -1 ≤ o ∧ o ≤ 1 := by
  simp only [zscoreNormalize] at ho
  split at ho
  · have := List.eq_of_mem_replicate ho
    subst this
    norm_num
  · obtain ⟨z, _, heq⟩ := List.mem_map.mp ho
    rw [← heq]
    exact clip_mem_Icc z

/-- Concrete zscore evaluation at [0, 0, 0, 0, 15]: mean 3, variance 36,
standard deviation 6, z-scores [-1/2, -1/2, -1/2, -1/2, 2], clipped to
[-1/2, -1/2, -1/2, -1/2, 1]. -/
theorem zscore_example_eval :
    zscoreNormalize [0, 0, 0, 0, 15] =
      [-(1/2), -(1/2), -(1/2), -(1/2), 1] := by
  have hm : ([0, 0, 0, 0, 15] : List ℝ).sum /
      (([0, 0, 0, 0, 15] : List ℝ).length : ℝ) = 3 := by
    norm_num
  have hv : Real.sqrt ((([0, 0, 0, 0, 15] : List ℝ).map
      (fun v => (v - 3) ^ 2)).sum / (([0, 0, 0, 0, 15] : List ℝ).length : ℝ)) = 6 := by
    norm_num
    rw [show (36 : ℝ) = 6 ^ 2 by norm_num, Real.sqrt_sq (by norm_num : (0:ℝ) ≤ 6)]
  simp only [zscoreNormalize, hm]
  norm_num at hv ⊢
  rw [hv]
  norm_num

/-- Counterexample to C7: in ZScore mode the non-constant input
[0, 0, 0, 0, 15] (mean 3, standard deviation 6) normalizes to
[-1/2, -1/2, -1/2, -1/2, 1]; no output equals -1, so the output does not
span [-1, 1] even though the input is not a degenerate constant list. -/
theorem C7_zscore_endpoint_counterexample :
    zscoreNormalize [0, 0, 0, 0, 15] =
      [-(1/2), -(1/2), -(1/2), -(1/2), 1] ∧
    ¬ ((-1 : ℝ) ∈ zscoreNormalize [0, 0, 0, 0, 15]) := by
  refine ⟨zscore_example_eval, ?_⟩
  rw [zscore_example_eval]
  intro h
  simp only [List.mem_cons, List.mem_singleton, List.not_mem_nil, or_false] at h
  rcases h with h | h | h | h | h <;> norm_num at h

/-- C7 amended: the span property holds for MinMax (nonempty, non-constant
input) and for Percentile (n > 1), while ZScore only guarantees outputs
within [-1, 1] (the clip) without attaining the endpoints. -/
theorem C7_normalizer_span_amended :
    (∀ values : List K, values ≠ [] →
       listMax values ≠ listMin values →
       ((-1 : K) ∈ minmaxNormalize values ∧
        (1 : K) ∈ minmaxNormalize values ∧
        ∀ o ∈ minmaxNormalize values, -1 ≤ o ∧ o ≤ 1)) ∧
    (∀ values : List K, 1 < values.length →
       (JSNum.num (-1 : K) ∈ percentileNormalize values ∧
        JSNum.num (1 : K) ∈ percentileNormalize values)) ∧
    (∀ (values : List ℝ) (o : ℝ), o ∈ zscoreNormalize values →
       -1 ≤ o ∧ o ≤ 1) :=
  ⟨fun values hne hneq => minmax_spans values hne hneq,
   fun values hn =>
     ⟨percentile_neg_one_mem values hn, percentile_one_mem values hn⟩,
   fun values o ho => zscore_bounds values o ho⟩

/-- Witness for C7 amended: minmax at [0, 2], percentile at [2, 1], zscore
at [0, 0, 0, 0, 15] with the output 1. -/
theorem C7_normalizer_span_amended_witness :
    (([0, 2] : List ℚ) ≠ [] ∧
     listMax ([0, 2] : List ℚ) ≠ listMin ([0, 2] : List ℚ) ∧
     ((-1 : ℚ) ∈ minmaxNormalize ([0, 2] : List ℚ) ∧
      (1 : ℚ) ∈ minmaxNormalize ([0, 2] : List ℚ) ∧
      ∀ o ∈ minmaxNormalize ([0, 2] : List ℚ), -1 ≤ o ∧ o ≤ 1)) ∧
    (1 < ([2, 1] : List ℚ).length ∧
     (JSNum.num (-1 : ℚ) ∈ percentileNormalize ([2, 1] : List ℚ) ∧
      JSNum.num (1 : ℚ) ∈ percentileNormalize ([2, 1] : List ℚ))) ∧
    ((1 : ℝ) ∈ zscoreNormalize [0, 0, 0, 0, 15] ∧
     (-1 ≤ (1 : ℝ) ∧ (1 : ℝ) ≤ 1)) := by
  have hmem : (1 : ℝ) ∈ zscoreNormalize [0, 0, 0, 0, 15] := by
    rw [zscore_example_eval]
    simp
  refine ⟨⟨by decide, by decide,
      (C7_normalizer_span_amended (K := ℚ)).1 [0, 2] (by decide) (by decide)⟩,
    ⟨by decide, (C7_normalizer_span_amended (K := ℚ)).2.1 [2, 1] (by decide)⟩,
    hmem, (C7_normalizer_span_amended (K := ℚ)).2.2 [0, 0, 0, 0, 15] 1 hmem⟩
